import Mathlib

/-!
Shallow embedding of the numerical routines of the ntuphys notebooks
(Born-series Monte Carlo scattering and reduced density matrices), together
with proofs of the specification claims about them.

Python floats are modelled as real numbers, complex values as `ℂ`.
The stream of outputs of np.random.random(3) is made explicit as a
function `u : ℕ → Fin 3 → ℝ` (the n-th draw, coordinatewise in [0,1)).
-/

open Finset MeasureTheory ProbabilityTheory Filter Topology

noncomputable section

/-- Three-component vectors, the arrays [x, y, z] of the notebook. -/
abbrev Vec3 : Type := Fin 3 → ℝ

/-- Embedding of np.dot on two length-3 one-dimensional arrays. -/
def dot3 (a b : Vec3) : ℝ := ∑ i : Fin 3, a i * b i

/-- Embedding of the sample point construction in the fborn1 loop:
r1 = 2 * L * np.random.random(3) - L, where u is the raw uniform draw. -/
def bornSample (L : ℝ) (u : Vec3) : Vec3 := fun i => 2 * L * u i - L

/-- Embedding of one summand of the fborn1 accumulator:
f1 += - Vfun(r1) * np.exp(1j * dkr) / (2 * np.pi), with dkr = np.dot(ki - kf, r1). -/
def bornTermCode (Vfun : Vec3 → ℝ) (ki kf : Vec3) (r1 : Vec3) : ℂ :=
  - (Vfun r1 : ℂ) * Complex.exp (Complex.I * (dot3 (ki - kf) r1 : ℝ)) / (2 * (Real.pi : ℝ))

/-- Embedding of the loop accumulator f1 of fborn1 after N iterations, with the
random stream u made explicit. -/
def fborn1Sum (Vfun : Vec3 → ℝ) (ki kf : Vec3) (L : ℝ) (N : ℕ) (u : ℕ → Vec3) : ℂ :=
  ∑ n ∈ range N, bornTermCode Vfun ki kf (bornSample L (u n))

/-- Embedding of the value computed and returned by fborn1 when its assertion
passes: return (1/N) * volume * f1 with volume = (2*L)**3. -/
def fborn1Run (Vfun : Vec3 → ℝ) (ki kf : Vec3) (L : ℝ) (N : ℕ) (u : ℕ → Vec3) : ℂ :=
  ((1 / (N : ℝ)) * (2 * L) ^ 3 : ℝ) * fborn1Sum Vfun ki kf L N u

/-- Embedding of fborn1. The Python assertion
assert abs(np.dot(ki,ki) - np.dot(kf,kf)) < 1e-5 is modelled by returning
none (an AssertionError) when the guard fails, and some of the computed
scattering amplitude otherwise. -/
def fborn1 (Vfun : Vec3 → ℝ) (ki kf : Vec3) (L : ℝ) (N : ℕ) (u : ℕ → Vec3) : Option ℂ :=
  if |dot3 ki ki - dot3 kf kf| < 1e-5 then some (fborn1Run Vfun ki kf L N u) else none

/-- Embedding of the shipped fborn2 stub, which ignores all inputs and
returns 0.0 (the exercise body is not filled in). -/
def fborn2 (Vfun : Vec3 → ℝ) (ki kf : Vec3) (L : ℝ) (N : ℕ) : ℂ := 0

/-- Embedding of the potential V1:
return 0.1 if np.absolute(np.dot(r,r)) < 1.0 else 0.0. -/
def V1 (r : Vec3) : ℝ := if |dot3 r r| < 1 then 0.1 else 0.0

/-- Integrand of the first Born integral as the spec words it:
-(1/(2*pi)) * Vfun(r1) * exp(i*(ki - kf)·r1). -/
def specBornIntegrand (Vfun : Vec3 → ℝ) (ki kf : Vec3) (r : Vec3) : ℂ :=
  -((1 : ℂ) / (2 * (Real.pi : ℝ))) * (Vfun r : ℂ) *
    Complex.exp (Complex.I * (dot3 (ki - kf) r : ℝ))

/-- Monte Carlo estimate as the spec words it: the arithmetic mean of the N
integrand values multiplied by the cube volume (2L)^3. -/
def specBornMC (Vfun : Vec3 → ℝ) (ki kf : Vec3) (L : ℝ) (N : ℕ) (u : ℕ → Vec3) : ℂ :=
  (((2 * L) ^ 3 : ℝ) : ℂ) *
    ((∑ n ∈ range N, specBornIntegrand Vfun ki kf (bornSample L (u n))) / (N : ℂ))

/-! ## Density matrices

A numpy two-dimensional complex array is modelled by its shape together with
a total entry function; Python runtime errors of the routine are modelled by
an explicit error type. -/

/-- Runtime errors that reduced_density_matrix_A can raise in Python. -/
inductive PyError where
  | assertionError : PyError
  | zeroDivisionError : PyError
deriving DecidableEq

/-- Model of a numpy 2-D complex array: a shape and an entry function
(entries outside the shape are irrelevant junk). -/
structure PyMatrix where
  rows : ℕ
  cols : ℕ
  entry : ℕ → ℕ → ℂ

/-- Embedding of np.eye(n): ones on the diagonal, zeros elsewhere. -/
def eyeM (n : ℕ) : PyMatrix :=
  ⟨n, n, fun i j => if i = j ∧ i < n then 1 else 0⟩

/-- Embedding of np.trace: sum of the diagonal entries. -/
def traceM (M : PyMatrix) : ℂ := ∑ i ∈ range M.rows, M.entry i i

/-- Embedding of the shipped reduced_density_matrix_A: assert that rho is
square (AssertionError otherwise), compute dimB = rho.shape[0] // dimA
(ZeroDivisionError when dimA = 0), then return the unfinished stub value
np.eye(dimA). -/
def reduced_density_matrix_A (rho : PyMatrix) (dimA : ℕ) : Except PyError PyMatrix :=
  if rho.rows = rho.cols then
    if dimA = 0 then Except.error PyError.zeroDivisionError
    else
      let dimB := rho.rows / dimA
      let _ := dimB
      Except.ok (eyeM dimA)
  else Except.error PyError.assertionError

/-- Partial trace over the B subsystem as the spec words it: the (i, j) entry
of rho_A is the sum over the dimB basis vectors b of rho[(i dimB + b), (j dimB + b)],
which is the matrix sum over b of (I_A tensor bra b) rho (I_A tensor ket b). -/
def specReducedDensityMatrixA (rho : PyMatrix) (dimA : ℕ) : PyMatrix :=
  let dimB := rho.rows / dimA
  ⟨dimA, dimA, fun i j =>
    if i < dimA ∧ j < dimA then
      ∑ b ∈ range dimB, rho.entry (i * dimB + b) (j * dimB + b)
    else 0⟩

/-- Basis vector up = np.array([1.0, 0.0]) of the entropy-check cell. -/
def upVec : ℕ → ℂ := fun j => if j = 0 then 1 else 0

/-- Basis vector down = np.array([0.0, 1.0]) of the entropy-check cell. -/
def downVec : ℕ → ℂ := fun j => if j = 1 then 1 else 0

/-- Embedding of np.kron of two length-2 vectors. -/
def kron2 (x y : ℕ → ℂ) : ℕ → ℂ := fun j => x (j / 2) * y (j % 2)

/-- The singlet state psi = 1/sqrt(2) (kron(up, down) - kron(down, up)) of the
entropy-check cell. -/
def singletPsi : ℕ → ℂ := fun j =>
  ((1 / Real.sqrt 2 : ℝ) : ℂ) * (kron2 upVec downVec j - kron2 downVec upVec j)

/-- The pure-state density matrix rho = np.outer(psi, psi.conj()) of the
entropy-check cell. -/
def singletRho : PyMatrix :=
  ⟨4, 4, fun i j => singletPsi i * (starRingEnd ℂ) (singletPsi j)⟩

/-! ## Notebook cells

For the statelessness claim, each code cell of the entanglement notebook is
modelled by the list of top-level names it assigns and the list of top-level
names it reads while executing (Python builtins omitted; a def statement
assigns the function name without reading the names in its body). -/

/-- One notebook code cell: the names its top-level statements assign and the
names they read. -/
structure NotebookCell where
  assigns : List String
  reads : List String
deriving DecidableEq

/-- Cell defining a, b and the operators OA, OB (tensor products of operators). -/
def tensorOperatorCell : NotebookCell :=
  ⟨["a", "b", "OA", "OB", "O_total", "OAa", "OBb"],
    ["np", "a", "b", "OA", "OB", "O_total", "OAa", "OBb"]⟩

/-- Left-projection example cell; its own comment notes that a, b, OA, and OB
were defined in a previous code cell. -/
def leftProjectionCell : NotebookCell :=
  ⟨["alpha", "projector", "beta"],
    ["np", "alpha", "projector", "OB", "a", "b", "OA", "beta"]⟩

/-- Right-projection example cell; its own comment notes that a, b, alpha,
beta, and OB were defined previously. -/
def rightProjectionCell : NotebookCell :=
  ⟨["projector1", "projector2"],
    ["np", "alpha", "OB", "a", "b", "OA", "beta", "projector1", "projector2"]⟩

/-- The code cells of the entanglement notebook, in order. -/
def entanglementCells : List NotebookCell :=
  [⟨["np", "a", "b", "psi"], ["np", "a", "b", "psi"]⟩,
    ⟨["foo"], ["np", "b", "a", "foo"]⟩,
    tensorOperatorCell,
    ⟨["m", "n", "p", "q", "r"], ["np"]⟩,
    leftProjectionCell,
    rightProjectionCell,
    ⟨["reduced_density_matrix_A"], []⟩,
    ⟨["up", "down", "psi", "rho", "rhoA", "logm", "S"],
      ["np", "up", "down", "psi", "rho", "reduced_density_matrix_A", "rhoA", "logm", "S"]⟩,
    ⟨["plt", "d", "A", "V", "eigvalsh", "E"], ["np", "plt", "d", "A", "V", "eigvalsh", "E"]⟩]

/-- A cell is self-contained when every name it reads is assigned by the cell
itself, so that its result does not depend on which other cells ran before. -/
def cellSelfContained (c : NotebookCell) : Prop :=
  ∀ s ∈ c.reads, s ∈ c.assigns

instance (c : NotebookCell) : Decidable (cellSelfContained c) :=
  List.decidableBAll _ c.reads

/-! ## Random sampling

The convergence claim idealises np.random.random(3) as a sequence of pairwise
independent draws whose law is the uniform distribution on the unit cube
(Lebesgue measure restricted to [0,1) in each coordinate). A concrete such
sequence is built on a product of two 3-tori: the n-th draw is x + (n+1) y,
which is Haar-uniform and pairwise independent in n. -/

/-- Law of one coordinate of an np.random.random draw: Lebesgue measure
restricted to [0, 1). -/
def uniform01 : Measure ℝ := volume.restrict (Set.Ico (0 : ℝ) 1)

/-- Law of one np.random.random(3) draw: the three coordinates independent
and uniform on [0, 1). -/
def unitCubeLaw : Measure Vec3 := Measure.pi fun _ : Fin 3 => uniform01

/-- The closed cube [-L, L]^3 over which the Born integral is taken. -/
def cubeSet (L : ℝ) : Set Vec3 := Set.univ.pi fun _ : Fin 3 => Set.Icc (-L) L

/-- The 3-torus: three independent copies of the circle of circumference 1. -/
abbrev Circle3 : Type := Fin 3 → UnitAddCircle

/-- Haar probability measure on the 3-torus. -/
def haarTorus : Measure Circle3 := Measure.pi fun _ : Fin 3 => volume

/-- The probability space driving the sampler: two independent Haar-uniform
points of the 3-torus. -/
def sampleMeasure : Measure (Circle3 × Circle3) := haarTorus.prod haarTorus

/-- The n-th torus draw x + (n+1) y; these are Haar-uniform and pairwise
independent as n varies. -/
def torusDraw (n : ℕ) (p : Circle3 × Circle3) : Circle3 :=
  p.1 + ((n : ℤ) + 1) • p.2

/-- Fundamental-domain representative in [0, 1) of a point of the circle. -/
def circleToReal (z : UnitAddCircle) : ℝ :=
  ((AddCircle.measurableEquivIco (T := 1) 0 z : Set.Ico (0 : ℝ) (0 + 1)) : ℝ)

/-- Coordinatewise representative map from the 3-torus to the unit cube. -/
def torusToCube (v : Circle3) : Vec3 := fun i => circleToReal (v i)

/-- The n-th uniform sample in [0,1)^3 feeding fborn1. -/
def uniformDraw (n : ℕ) (p : Circle3 × Circle3) : Vec3 :=
  torusToCube (torusDraw n p)

instance : IsProbabilityMeasure (volume : Measure UnitAddCircle) :=
  ⟨by rw [AddCircle.measure_univ]; norm_num⟩

instance : IsProbabilityMeasure uniform01 := by
  refine ⟨?_⟩
  rw [uniform01, Measure.restrict_apply MeasurableSet.univ, Set.univ_inter, Real.volume_Ico]
  norm_num

instance : IsProbabilityMeasure unitCubeLaw :=
  inferInstanceAs (IsProbabilityMeasure (Measure.pi fun _ : Fin 3 => uniform01))

instance : IsProbabilityMeasure haarTorus :=
  inferInstanceAs (IsProbabilityMeasure (Measure.pi fun _ : Fin 3 =>
    (volume : Measure UnitAddCircle)))

instance : Measure.IsAddLeftInvariant haarTorus :=
  inferInstanceAs (Measure.IsAddLeftInvariant (Measure.pi fun _ : Fin 3 =>
    (volume : Measure UnitAddCircle)))

instance : Measure.IsAddRightInvariant haarTorus :=
  inferInstanceAs (Measure.IsAddRightInvariant (Measure.pi fun _ : Fin 3 =>
    (volume : Measure UnitAddCircle)))

instance : IsProbabilityMeasure sampleMeasure :=
  inferInstanceAs (IsProbabilityMeasure (haarTorus.prod haarTorus))

lemma dot3_self_nonneg (r : Vec3) : 0 ≤ dot3 r r :=
  Finset.sum_nonneg fun i _ => mul_self_nonneg (r i)

lemma dot3_sub_swap (a b r : Vec3) : dot3 (a - b) r = - dot3 (b - a) r := by
  simp only [dot3]
  rw [← Finset.sum_neg_distrib]
  refine Finset.sum_congr rfl fun i _ => ?_
  have : (a - b) i = -((b - a) i) := by
    show a i - b i = -(b i - a i)
    ring
  rw [this]
  ring

/-- C1: with the raw uniform draws in [0,1), fborn1 passes its guard for
equal-magnitude wavevectors and returns exactly the cube volume (2L)^3 times
the arithmetic mean of the N integrand values -(1/(2π)) Vfun(r1) exp(i(ki-kf)·r1),
each sample point having every coordinate in [-L, L]. -/
theorem fborn1_is_monte_carlo_estimate (Vfun : Vec3 → ℝ) (ki kf : Vec3) (L : ℝ)
    (N : ℕ) (u : ℕ → Vec3) (hk : dot3 ki ki = dot3 kf kf) (hL : 0 < L) (hN : 1 ≤ N)
    (hu : ∀ n i, u n i ∈ Set.Ico (0 : ℝ) 1) :
    fborn1 Vfun ki kf L N u = some (specBornMC Vfun ki kf L N u) ∧
      ∀ n i, bornSample L (u n) i ∈ Set.Icc (-L) L := by
  constructor
  · have hguard : |dot3 ki ki - dot3 kf kf| < 1e-5 := by
      rw [hk, sub_self, abs_zero]; norm_num
    rw [fborn1, if_pos hguard]
    congr 1
    rw [fborn1Run, specBornMC, fborn1Sum, Finset.sum_div, Finset.mul_sum, Finset.mul_sum]
    refine Finset.sum_congr rfl fun n _ => ?_
    rw [bornTermCode, specBornIntegrand]
    push_cast
    ring
  · intro n i
    have h0 := (hu n i).1
    have h1 := (hu n i).2
    constructor
    · show -L ≤ 2 * L * u n i - L
      nlinarith
    · show 2 * L * u n i - L ≤ L
      nlinarith

/-- Witness for C1 at a concrete input: constant potential 1, ki = kf = 0,
L = 1, N = 1, all raw draws equal to 1/2. -/
theorem fborn1_is_monte_carlo_estimate_witness :
    fborn1 (fun _ => 1) 0 0 1 1 (fun (_ : ℕ) (_ : Fin 3) => (1 / 2 : ℝ)) =
        some (specBornMC (fun _ => 1) 0 0 1 1 (fun (_ : ℕ) (_ : Fin 3) => (1 / 2 : ℝ))) ∧
      ∀ (n : ℕ) (i : Fin 3),
        bornSample 1 ((fun (_ : ℕ) (_ : Fin 3) => (1 / 2 : ℝ)) n) i ∈ Set.Icc (-(1 : ℝ)) 1 :=
  fborn1_is_monte_carlo_estimate (fun _ => 1) 0 0 1 1 (fun _ _ => 1 / 2) rfl one_pos
    le_rfl (fun _ _ => by norm_num)

/-- C3: fborn1 signals an AssertionError (returns none, performing no sampling)
exactly when the squared-magnitude guard |ki·ki - kf·kf| < 1e-5 fails, and when
the guard passes it returns the computed scattering amplitude. -/
theorem fborn1_assertion_behaviour (Vfun : Vec3 → ℝ) (ki kf : Vec3) (L : ℝ)
    (N : ℕ) (u : ℕ → Vec3) :
    (fborn1 Vfun ki kf L N u = none ↔ ¬ |dot3 ki ki - dot3 kf kf| < 1e-5) ∧
      (|dot3 ki ki - dot3 kf kf| < 1e-5 →
        fborn1 Vfun ki kf L N u = some (fborn1Run Vfun ki kf L N u)) := by
  constructor
  · rw [fborn1]
    split_ifs with h <;> simp [h]
  · intro h
    rw [fborn1, if_pos h]

/-- Witness for C3: with ki = 0 and kf = (1,1,1) the guard fails and fborn1
aborts; with ki = kf = 0 it passes and the amplitude is returned. -/
theorem fborn1_assertion_behaviour_witness :
    fborn1 (fun _ => 0) 0 (fun _ => 1) 1 1 (fun _ _ => 0) = none ∧
      fborn1 (fun _ => 0) 0 0 1 1 (fun _ _ => 0) =
        some (fborn1Run (fun _ => 0) 0 0 1 1 (fun _ _ => 0)) := by
  constructor
  · refine (fborn1_assertion_behaviour (fun _ => 0) 0 (fun _ => 1) 1 1 (fun _ _ => 0)).1.mpr ?_
    have h1 : dot3 (fun _ => (1 : ℝ)) (fun _ => 1) = 3 := by
      simp [dot3, Fin.sum_univ_three]
    have h0 : dot3 (0 : Vec3) 0 = 0 := by
      simp [dot3]
    rw [h0, h1]
    norm_num
  · refine (fborn1_assertion_behaviour (fun _ => 0) 0 0 1 1 (fun _ _ => 0)).2 ?_
    rw [sub_self, abs_zero]
    norm_num

lemma bornTermCode_swap (Vfun : Vec3 → ℝ) (ki kf r : Vec3) :
    bornTermCode Vfun kf ki r = (starRingEnd ℂ) (bornTermCode Vfun ki kf r) := by
  rw [bornTermCode, bornTermCode, map_div₀, map_mul, map_neg, Complex.conj_ofReal,
    ← Complex.exp_conj, map_mul, Complex.conj_I, Complex.conj_ofReal, dot3_sub_swap kf ki]
  have hden : (starRingEnd ℂ) (2 * (Real.pi : ℝ) : ℂ) = (2 * (Real.pi : ℝ) : ℂ) := by
    rw [map_mul, Complex.conj_ofReal, map_ofNat]
  rw [hden]
  push_cast
  ring_nf

/-- C8: with the random stream held fixed, swapping the incoming and outgoing
wavevectors conjugates the fborn1 result (the guard is symmetric and the phase
changes sign while the real weight is unchanged). -/
theorem fborn1_swap_is_conj (Vfun : Vec3 → ℝ) (ki kf : Vec3) (L : ℝ)
    (N : ℕ) (u : ℕ → Vec3) :
    fborn1 Vfun kf ki L N u = Option.map (starRingEnd ℂ) (fborn1 Vfun ki kf L N u) := by
  have hguard : |dot3 kf kf - dot3 ki ki| < 1e-5 ↔ |dot3 ki ki - dot3 kf kf| < 1e-5 := by
    rw [abs_sub_comm]
  rw [fborn1, fborn1]
  split_ifs with h h' h'
  · rw [Option.map_some']
    congr 1
    rw [fborn1Run, fborn1Run, map_mul, Complex.conj_ofReal, fborn1Sum, fborn1Sum, map_sum]
    congr 1
    exact Finset.sum_congr rfl fun n _ => bornTermCode_swap Vfun ki kf _
  · exact absurd (hguard.mp h) h'
  · exact absurd (hguard.mpr h') h
  · rfl

/-- C9: V1 returns exactly 0.1 when r·r < 1 (equivalently when the norm of r is
less than 1) and exactly 0.0 otherwise, and takes no other values. -/
theorem V1_values (r : Vec3) :
    (V1 r = 0.1 ↔ dot3 r r < 1) ∧ (V1 r = 0 ↔ 1 ≤ dot3 r r) ∧
      (V1 r = 0.1 ↔ Real.sqrt (dot3 r r) < 1) ∧ (V1 r = 0.1 ∨ V1 r = 0) := by
  have habs : |dot3 r r| = dot3 r r := abs_of_nonneg (dot3_self_nonneg r)
  have hsq : Real.sqrt (dot3 r r) < 1 ↔ dot3 r r < 1 := by
    rw [Real.sqrt_lt' one_pos, one_pow]
  have hz : (0.0 : ℝ) = 0 := by norm_num
  rw [V1, habs]
  split_ifs with h
  · refine ⟨⟨fun _ => h, fun _ => rfl⟩, ⟨fun h01 => absurd h01 (by norm_num), ?_⟩,
      ⟨fun _ => hsq.mpr h, fun _ => rfl⟩, Or.inl rfl⟩
    intro h1
    linarith
  · push_neg at h
    exact ⟨⟨fun h01 => absurd h01 (by norm_num), fun hlt => absurd hlt (by linarith)⟩,
      ⟨fun _ => h, fun _ => hz⟩,
      ⟨fun h01 => absurd h01 (by norm_num), fun hlt => absurd (hsq.mp hlt) (by linarith)⟩,
      Or.inr hz⟩


lemma singletPsi_zero : singletPsi 0 = 0 := by
  simp [singletPsi, kron2, upVec, downVec]

lemma singletPsi_one : singletPsi 1 = ((1 / Real.sqrt 2 : ℝ) : ℂ) := by
  simp [singletPsi, kron2, upVec, downVec]

lemma singletPsi_two : singletPsi 2 = -((1 / Real.sqrt 2 : ℝ) : ℂ) := by
  simp [singletPsi, kron2, upVec, downVec]

lemma singletPsi_three : singletPsi 3 = 0 := by
  simp [singletPsi, kron2, upVec, downVec]

lemma invSqrtTwo_mul_conj :
    ((1 / Real.sqrt 2 : ℝ) : ℂ) * (starRingEnd ℂ) ((1 / Real.sqrt 2 : ℝ) : ℂ) = 1 / 2 := by
  rw [Complex.conj_ofReal, ← Complex.ofReal_mul]
  have h2 : (0 : ℝ) ≤ 2 := by norm_num
  have : (1 / Real.sqrt 2 : ℝ) * (1 / Real.sqrt 2) = 1 / 2 := by
    rw [div_mul_div_comm, one_mul, Real.mul_self_sqrt h2]
  rw [this]
  push_cast
  ring

/-- C2: the shipped reduced_density_matrix_A does not return the partial trace.
On the notebook's own singlet-state input it returns the 2 x 2 identity, while
the partial trace Tr_B of that density matrix has (0,0) entry 1/2, so the two
disagree. -/
theorem reduced_density_matrix_A_is_not_partial_trace :
    reduced_density_matrix_A singletRho 2 = Except.ok (eyeM 2) ∧
      (specReducedDensityMatrixA singletRho 2).entry 0 0 = 1 / 2 ∧
      (eyeM 2).entry 0 0 = 1 ∧
      specReducedDensityMatrixA singletRho 2 ≠ eyeM 2 := by
  have hrho : ∀ i j, singletRho.entry i j =
      singletPsi i * (starRingEnd ℂ) (singletPsi j) := fun i j => rfl
  have hspec : (specReducedDensityMatrixA singletRho 2).entry 0 0 = 1 / 2 := by
    show (if (0 : ℕ) < 2 ∧ (0 : ℕ) < 2 then
        ∑ b ∈ range ((4 : ℕ) / 2), singletRho.entry (0 * 2 + b) (0 * 2 + b) else 0) = 1 / 2
    rw [if_pos (by omega)]
    norm_num [Finset.sum_range_succ, hrho, singletPsi_zero, singletPsi_one,
      invSqrtTwo_mul_conj]
    rw [← mul_inv, ← Complex.ofReal_mul, Real.mul_self_sqrt (by norm_num : (0 : ℝ) ≤ 2)]
    norm_num
  refine ⟨rfl, hspec, by simp [eyeM], fun heq => ?_⟩
  have h0 : (specReducedDensityMatrixA singletRho 2).entry 0 0 = (eyeM 2).entry 0 0 := by
    rw [heq]
  rw [hspec] at h0
  have h1 : (eyeM 2).entry 0 0 = 1 := by simp [eyeM]
  rw [h1] at h0
  norm_num at h0

/-- C4: the singlet-state input is a genuine pure-state density matrix
(Hermitian with trace 1), yet the value the shipped routine returns for it,
the 2 x 2 identity, has trace 2 rather than 1, so the returned matrix is not
a density matrix. -/
theorem reduced_density_matrix_A_breaks_trace_one :
    (∀ i j, (starRingEnd ℂ) (singletRho.entry j i) = singletRho.entry i j) ∧
      traceM singletRho = 1 ∧
      reduced_density_matrix_A singletRho 2 = Except.ok (eyeM 2) ∧
      traceM (eyeM 2) = 2 ∧ traceM (eyeM 2) ≠ 1 := by
  refine ⟨fun i j => ?_, ?_, rfl, ?_, ?_⟩
  · show (starRingEnd ℂ) (singletPsi j * (starRingEnd ℂ) (singletPsi i)) =
      singletPsi i * (starRingEnd ℂ) (singletPsi j)
    rw [map_mul, Complex.conj_conj]
    ring
  · show ∑ i ∈ range 4, singletRho.entry i i = 1
    rw [Finset.sum_range_succ, Finset.sum_range_succ, Finset.sum_range_succ,
      Finset.sum_range_one]
    show singletPsi 0 * (starRingEnd ℂ) (singletPsi 0) +
        singletPsi 1 * (starRingEnd ℂ) (singletPsi 1) +
        singletPsi 2 * (starRingEnd ℂ) (singletPsi 2) +
        singletPsi 3 * (starRingEnd ℂ) (singletPsi 3) = 1
    rw [singletPsi_zero, singletPsi_one, singletPsi_two, singletPsi_three]
    rw [map_neg, neg_mul_neg, invSqrtTwo_mul_conj]
    ring
  · show ∑ i ∈ range 2, (eyeM 2).entry i i = 2
    rw [Finset.sum_range_succ, Finset.sum_range_one]
    norm_num [eyeM]
  · show ∑ i ∈ range 2, (eyeM 2).entry i i ≠ 1
    rw [Finset.sum_range_succ, Finset.sum_range_one]
    norm_num [eyeM]

/-- C6 counterexample: for the square 1 x 1 input np.eye(1) with dimA = 0 the
routine does not return the 0 x 0 identity; the floor division
rho.shape[0] // 0 raises ZeroDivisionError instead. -/
theorem stub_identity_claim_fails_at_dimA_zero :
    (eyeM 1).rows = (eyeM 1).cols ∧
      reduced_density_matrix_A (eyeM 1) 0 ≠ Except.ok (eyeM 0) ∧
      reduced_density_matrix_A (eyeM 1) 0 = Except.error PyError.zeroDivisionError := by
  refine ⟨rfl, ?_, rfl⟩
  intro h
  exact Except.noConfusion h

/-- C6 amended: fborn2 returns 0.0 for every input, and for every square rho
and every dimA at least 1 the shipped reduced_density_matrix_A returns the
dimA x dimA identity matrix rather than a partial trace. -/
theorem unfinished_stubs_return_trivial_values (Vfun : Vec3 → ℝ) (ki kf : Vec3)
    (L : ℝ) (N : ℕ) (rho : PyMatrix) (dimA : ℕ)
    (hsq : rho.rows = rho.cols) (hA : 1 ≤ dimA) :
    fborn2 Vfun ki kf L N = 0 ∧
      reduced_density_matrix_A rho dimA = Except.ok (eyeM dimA) := by
  refine ⟨rfl, ?_⟩
  rw [reduced_density_matrix_A, if_pos hsq, if_neg (by omega)]

/-- Witness for the amended C6 at a concrete input: the square matrix
np.eye(3) with dimA = 2 (which does not divide 3) still yields np.eye(2). -/
theorem unfinished_stubs_return_trivial_values_witness :
    fborn2 (fun _ => 1) 0 0 1 5 = 0 ∧
      reduced_density_matrix_A (eyeM 3) 2 = Except.ok (eyeM 2) :=
  unfinished_stubs_return_trivial_values (fun _ => 1) 0 0 1 5 (eyeM 3) 2 rfl
    (by norm_num)

/-- C10 counterexample: np.eye(1) is square and its dimension 1 is not a
multiple of dimA = 0, yet the call raises ZeroDivisionError rather than
returning a 0 x 0 matrix with no error. -/
theorem rdmA_error_free_claim_fails_at_dimA_zero :
    (eyeM 1).rows = (eyeM 1).cols ∧ ¬ (0 ∣ (eyeM 1).rows) ∧
      reduced_density_matrix_A (eyeM 1) 0 = Except.error PyError.zeroDivisionError := by
  refine ⟨rfl, ?_, rfl⟩
  intro h
  have : (eyeM 1).rows = 0 := Nat.eq_zero_of_zero_dvd h
  exact Nat.one_ne_zero this

/-- C10 amended: the routine raises AssertionError exactly when rho is not
square, and for every square rho and every dimA at least 1 it performs no
divisibility check: no error is raised and the dimA x dimA matrix np.eye(dimA)
is returned even when dimA does not divide the dimension of rho. -/
theorem rdmA_assert_iff_not_square (rho : PyMatrix) (dimA : ℕ) :
    (reduced_density_matrix_A rho dimA = Except.error PyError.assertionError ↔
        rho.rows ≠ rho.cols) ∧
      (rho.rows = rho.cols → 1 ≤ dimA →
        reduced_density_matrix_A rho dimA = Except.ok (eyeM dimA)) := by
  constructor
  · rw [reduced_density_matrix_A]
    split_ifs with h h0
    · simp [h]
    · simp [h]
    · simp [h]
  · intro hsq hA
    rw [reduced_density_matrix_A, if_pos hsq, if_neg (by omega)]

/-- Witness for C10 at concrete inputs: a square 3 x 3 matrix with the
non-divisor dimA = 2 returns np.eye(2) without error, and a non-square 2 x 3
matrix raises AssertionError. -/
theorem rdmA_assert_iff_not_square_witness :
    reduced_density_matrix_A (eyeM 3) 2 = Except.ok (eyeM 2) ∧
      reduced_density_matrix_A ⟨2, 3, fun _ _ => 0⟩ 2 =
        Except.error PyError.assertionError :=
  ⟨(rdmA_assert_iff_not_square (eyeM 3) 2).2 rfl (by norm_num),
    (rdmA_assert_iff_not_square ⟨2, 3, fun _ _ => 0⟩ 2).1.mpr (by norm_num)⟩

/-- C5 counterexample: the left-projection example cell of the entanglement
notebook reads the name OB, which it does not assign; OB is assigned by the
earlier tensor-operator cell, so the cells are neither independent nor
stateless. -/
theorem notebook_cells_not_independent :
    leftProjectionCell ∈ entanglementCells ∧
      tensorOperatorCell ∈ entanglementCells ∧
      tensorOperatorCell ≠ leftProjectionCell ∧
      ("OB" ∈ leftProjectionCell.reads ∧ "OB" ∉ leftProjectionCell.assigns ∧
        "OB" ∈ tensorOperatorCell.assigns) ∧
      ¬ cellSelfContained leftProjectionCell := by
  decide

/-- C5 amended: the cells are order-dependent rather than independent: every
name a cell of the entanglement notebook reads is assigned either by the cell
itself or by an earlier cell of the notebook. -/
theorem notebook_cells_sequentially_defined (i : Fin entanglementCells.length)
    (s : String) (hs : s ∈ (entanglementCells.get i).reads) :
    s ∈ (entanglementCells.take (i.1 + 1)).flatMap NotebookCell.assigns := by
  revert hs
  revert s
  revert i
  decide

/-- Witness for the amended C5: the name OB read by the fifth cell is assigned
by the cells up to it. -/
theorem notebook_cells_sequentially_defined_witness :
    "OB" ∈ (entanglementCells.take (4 + 1)).flatMap NotebookCell.assigns :=
  notebook_cells_sequentially_defined ⟨4, by decide⟩ "OB" (by decide)

/-! ## Lemmas on the sampling construction -/

lemma measurable_coordwise {α β : Type} [MeasurableSpace α] [MeasurableSpace β]
    {f : α → β} (hf : Measurable f) :
    Measurable fun v : Fin 3 → α => fun i => f (v i) :=
  measurable_pi_lambda _ fun i => hf.comp (measurable_pi_apply i)

lemma map_pi_coordwise {α β : Type} [MeasurableSpace α] [MeasurableSpace β]
    {f : α → β} (hf : Measurable f) (μ : Measure α) [IsProbabilityMeasure μ] :
    Measure.map (fun v : Fin 3 → α => fun i => f (v i)) (Measure.pi fun _ => μ) =
      Measure.pi fun _ : Fin 3 => Measure.map f μ := by
  haveI : IsProbabilityMeasure (Measure.map f μ) :=
    isProbabilityMeasure_map hf.aemeasurable
  refine (Measure.pi_eq fun s hs => ?_).symm
  rw [Measure.map_apply (measurable_coordwise hf) (MeasurableSet.univ_pi hs)]
  have hpre : Set.preimage (fun v : Fin 3 → α => fun i => f (v i)) (Set.univ.pi s) =
      Set.univ.pi (fun i => Set.preimage f (s i)) := by
    ext v
    simp [Set.mem_pi]
  rw [hpre, Measure.pi_pi]
  exact Finset.prod_congr rfl fun i _ => (Measure.map_apply hf (hs i)).symm

lemma pi_smul3 (c : ENNReal) (hc : c ≠ ⊤) (m : Measure ℝ) [IsFiniteMeasure m] :
    Measure.pi (fun _ : Fin 3 => c • m) = c ^ 3 • Measure.pi (fun _ : Fin 3 => m) := by
  haveI : IsFiniteMeasure (c • m) := by
    refine ⟨?_⟩
    rw [Measure.smul_apply, smul_eq_mul]
    exact ENNReal.mul_lt_top hc.lt_top (measure_lt_top m _)
  refine Measure.pi_eq fun s hs => ?_
  rw [Measure.smul_apply, Measure.pi_pi, smul_eq_mul]
  have : ∀ i : Fin 3, (c • m) (s i) = c * m (s i) := fun i => rfl
  simp [this, Finset.prod_mul_distrib, Finset.prod_const]

lemma measurable_circleToReal : Measurable circleToReal :=
  measurable_subtype_coe.comp (AddCircle.measurableEquivIco (T := 1) 0).measurable

lemma circleToReal_coe {x : ℝ} (hx : x ∈ Set.Ico (0 : ℝ) 1) :
    circleToReal ((x : ℝ) : UnitAddCircle) = x := by
  have h01 : (0 : ℝ) < 1 := one_pos
  show ((AddCircle.measurableEquivIco (T := 1) 0 ((x : ℝ) : UnitAddCircle) :
    Set.Ico (0 : ℝ) (0 + 1)) : ℝ) = x
  have hIco : x ∈ Set.Ico (0 : ℝ) (0 + 1) := by
    constructor
    · exact hx.1
    · rw [zero_add]
      exact hx.2
  have : (AddCircle.measurableEquivIco (T := 1) 0) ((x : ℝ) : UnitAddCircle) =
      ⟨x, hIco⟩ := by
    show (AddCircle.equivIco 1 0) ((x : ℝ) : UnitAddCircle) = ⟨x, hIco⟩
    show (QuotientAddGroup.equivIcoMod (Fact.out) 0) ((x : ℝ) : UnitAddCircle) = ⟨x, hIco⟩
    rw [QuotientAddGroup.equivIcoMod_coe]
    exact Subtype.ext ((toIcoMod_eq_self _).mpr hIco)
  rw [this]

lemma map_circleToReal_volume : Measure.map circleToReal volume = uniform01 := by
  have hmk := AddCircle.measurePreserving_mk (T := 1) 0
  rw [← hmk.map_eq, Measure.map_map measurable_circleToReal hmk.measurable]
  have hne : ∀ᵐ x ∂(volume : Measure ℝ), x ≠ 1 := by
    rw [ae_iff]
    have : {x : ℝ | ¬x ≠ 1} = {1} := by
      ext x
      simp
    rw [this]
    exact measure_singleton 1
  have hae : (circleToReal ∘ ((↑) : ℝ → UnitAddCircle)) =ᵐ[volume.restrict
      (Set.Ioc 0 (0 + 1))] id := by
    rw [Filter.EventuallyEq]
    rw [ae_restrict_iff' measurableSet_Ioc]
    filter_upwards [hne] with x hx1 hx2
    have hxIco : x ∈ Set.Ico (0 : ℝ) 1 := by
      constructor
      · exact le_of_lt hx2.1
      · have := hx2.2
        rw [zero_add] at this
        exact lt_of_le_of_ne this hx1
    exact circleToReal_coe hxIco
  rw [Measure.map_congr hae, Measure.map_id, uniform01]
  rw [zero_add]
  exact (Measure.restrict_congr_set Ico_ae_eq_Ioc).symm

lemma zsmul_torus_mp {c : ℤ} (hc : c ≠ 0) :
    MeasurePreserving (fun v : Circle3 => c • v) haarTorus haarTorus := by
  have h := Measure.measurePreserving_zsmul (volume : Measure UnitAddCircle) hc
  constructor
  · exact measurable_coordwise h.measurable
  · show Measure.map (fun v : Circle3 => c • v) haarTorus = haarTorus
    have heq : (fun v : Circle3 => c • v) =
        fun v : Circle3 => fun i => (fun x : UnitAddCircle => c • x) (v i) := rfl
    rw [haarTorus, heq, map_pi_coordwise h.measurable, h.map_eq]

lemma torus_skew_mp (a : ℤ) :
    MeasurePreserving (fun p : Circle3 × Circle3 => (p.1 + a • p.2, p.2))
      sampleMeasure sampleMeasure := by
  have hg : Measurable fun q : Circle3 × Circle3 => q.2 + a • q.1 :=
    (continuous_snd.add ((continuous_zsmul a).comp continuous_fst)).measurable
  have hσ : MeasurePreserving (fun q : Circle3 × Circle3 => (q.1, q.2 + a • q.1))
      (haarTorus.prod haarTorus) (haarTorus.prod haarTorus) := by
    refine MeasurePreserving.skew_product (g := fun y x => x + a • y)
      (MeasurePreserving.id haarTorus) hg ?_
    exact Filter.Eventually.of_forall fun y => map_add_right_eq_self haarTorus (a • y)
  have hswap : MeasurePreserving (Prod.swap : Circle3 × Circle3 → Circle3 × Circle3)
      (haarTorus.prod haarTorus) (haarTorus.prod haarTorus) :=
    Measure.measurePreserving_swap
  have hcomp := hswap.comp (hσ.comp hswap)
  have heq : ((Prod.swap : Circle3 × Circle3 → Circle3 × Circle3) ∘
      ((fun q : Circle3 × Circle3 => (q.1, q.2 + a • q.1)) ∘ Prod.swap)) =
      fun p : Circle3 × Circle3 => (p.1 + a • p.2, p.2) := by
    funext p
    rfl
  rw [heq] at hcomp
  show MeasurePreserving _ (haarTorus.prod haarTorus) (haarTorus.prod haarTorus)
  exact hcomp

lemma torusDraw_mp (n : ℕ) : MeasurePreserving (torusDraw n) sampleMeasure haarTorus := by
  have h := torus_skew_mp ((n : ℤ) + 1)
  constructor
  · exact (continuous_fst.add ((continuous_zsmul ((n : ℤ) + 1)).comp continuous_snd)).measurable
  · have heq : torusDraw n = Prod.fst ∘
        fun p : Circle3 × Circle3 => (p.1 + ((n : ℤ) + 1) • p.2, p.2) := rfl
    rw [heq, ← Measure.map_map measurable_fst h.measurable, h.map_eq]
    show Measure.map Prod.fst (haarTorus.prod haarTorus) = haarTorus
    rw [Measure.map_fst_prod]
    simp

lemma torusDraw_pair_mp {m n : ℕ} (hmn : m ≠ n) :
    MeasurePreserving (fun p : Circle3 × Circle3 => (torusDraw m p, torusDraw n p))
      sampleMeasure sampleMeasure := by
  set a : ℤ := (m : ℤ) + 1 with ha
  set b : ℤ := (n : ℤ) + 1 with hb
  have hab : b - a ≠ 0 := by
    rw [ha, hb]
    intro hzero
    apply hmn
    have : (m : ℤ) = (n : ℤ) := by omega
    exact_mod_cast this
  have hA := torus_skew_mp a
  have hB : MeasurePreserving (fun p : Circle3 × Circle3 => (p.1, (b - a) • p.2))
      (haarTorus.prod haarTorus) (haarTorus.prod haarTorus) :=
    (MeasurePreserving.id haarTorus).prod (zsmul_torus_mp hab)
  have hC : MeasurePreserving (fun p : Circle3 × Circle3 => (p.1, p.1 + p.2))
      (haarTorus.prod haarTorus) (haarTorus.prod haarTorus) :=
    measurePreserving_prod_add haarTorus haarTorus
  have hcomp := hC.comp (hB.comp hA)
  have heq : ((fun p : Circle3 × Circle3 => (p.1, p.1 + p.2)) ∘
      ((fun p : Circle3 × Circle3 => (p.1, (b - a) • p.2)) ∘
        fun p : Circle3 × Circle3 => (p.1 + a • p.2, p.2))) =
      fun p : Circle3 × Circle3 => (torusDraw m p, torusDraw n p) := by
    funext p
    have hcoef : a + (b - a) = b := by ring
    show (p.1 + a • p.2, p.1 + a • p.2 + (b - a) • p.2) = (p.1 + a • p.2, p.1 + b • p.2)
    rw [add_assoc, ← add_zsmul, hcoef]
  rw [heq] at hcomp
  exact hcomp

lemma torusDraw_indepFun {m n : ℕ} (hmn : m ≠ n) :
    IndepFun (torusDraw m) (torusDraw n) sampleMeasure := by
  haveI : IsProbabilityMeasure sampleMeasure :=
    inferInstanceAs (IsProbabilityMeasure (haarTorus.prod haarTorus))
  rw [indepFun_iff_map_prod_eq_prod_map_map (torusDraw_mp m).measurable.aemeasurable
    (torusDraw_mp n).measurable.aemeasurable]
  rw [(torusDraw_pair_mp hmn).map_eq, (torusDraw_mp m).map_eq, (torusDraw_mp n).map_eq]
  rfl

lemma measurable_torusToCube : Measurable torusToCube :=
  measurable_coordwise measurable_circleToReal

lemma uniformDraw_measurable (n : ℕ) : Measurable (uniformDraw n) :=
  measurable_torusToCube.comp (torusDraw_mp n).measurable

lemma map_torusToCube : Measure.map torusToCube haarTorus = unitCubeLaw := by
  show Measure.map (fun v : Circle3 => fun i => circleToReal (v i))
    (Measure.pi fun _ => volume) = unitCubeLaw
  rw [map_pi_coordwise measurable_circleToReal, map_circleToReal_volume]
  rfl

lemma uniformDraw_law (n : ℕ) : Measure.map (uniformDraw n) sampleMeasure = unitCubeLaw := by
  show Measure.map (torusToCube ∘ torusDraw n) sampleMeasure = unitCubeLaw
  rw [← Measure.map_map measurable_torusToCube (torusDraw_mp n).measurable,
    (torusDraw_mp n).map_eq, map_torusToCube]

lemma uniformDraw_indep :
    Pairwise fun m n => IndepFun (uniformDraw m) (uniformDraw n) sampleMeasure := by
  intro m n hmn
  exact (torusDraw_indepFun hmn).comp measurable_torusToCube measurable_torusToCube

/-! ## Convergence of the Monte Carlo estimator -/

lemma bornTermCode_eq_integrand (Vfun : Vec3 → ℝ) (ki kf r : Vec3) :
    bornTermCode Vfun ki kf r = specBornIntegrand Vfun ki kf r := by
  rw [bornTermCode, specBornIntegrand]
  ring

lemma measurable_bornSample (L : ℝ) : Measurable (bornSample L) := by
  refine measurable_pi_lambda _ fun i => ?_
  exact (measurable_const.mul (measurable_pi_apply i)).sub measurable_const

lemma measurable_integrand {Vfun : Vec3 → ℝ} (hV : Measurable Vfun) (ki kf : Vec3) :
    Measurable (specBornIntegrand Vfun ki kf) := by
  have hdot : Measurable fun r : Vec3 => dot3 (ki - kf) r := by
    refine Finset.measurable_sum _ fun i _ => ?_
    exact measurable_const.mul (measurable_pi_apply i)
  refine Measurable.mul (Measurable.mul measurable_const ?_) ?_
  · exact Complex.measurable_ofReal.comp hV
  · exact Complex.continuous_exp.measurable.comp
      (measurable_const.mul (Complex.measurable_ofReal.comp hdot))

lemma integrand_norm_le {Vfun : Vec3 → ℝ} {C : ℝ} (hC : ∀ r, |Vfun r| ≤ C)
    (ki kf r : Vec3) :
    ‖specBornIntegrand Vfun ki kf r‖ ≤ (2 * Real.pi)⁻¹ * C := by
  rw [specBornIntegrand]
  rw [norm_mul, norm_mul, norm_neg]
  have hexp : ‖Complex.exp (Complex.I * (dot3 (ki - kf) r : ℝ))‖ = 1 := by
    rw [Complex.norm_eq_abs, Complex.abs_exp]
    have : (Complex.I * (dot3 (ki - kf) r : ℝ)).re = 0 := by
      simp [Complex.mul_re]
    rw [this, Real.exp_zero]
  rw [hexp, mul_one]
  have h1 : ‖(1 : ℂ) / (2 * (Real.pi : ℝ))‖ = (2 * Real.pi)⁻¹ := by
    rw [norm_div, norm_one]
    rw [show ((2 * (Real.pi : ℝ)) : ℂ) = ((2 * Real.pi : ℝ) : ℂ) by push_cast; ring]
    rw [Complex.norm_real, Real.norm_eq_abs,
      abs_of_pos (by positivity : (0 : ℝ) < 2 * Real.pi), one_div]
  have h2 : ‖((Vfun r : ℝ) : ℂ)‖ = |Vfun r| := by
    rw [Complex.norm_real, Real.norm_eq_abs]
  rw [h1, h2]
  have hpi : (0 : ℝ) < (2 * Real.pi)⁻¹ := by positivity
  exact mul_le_mul_of_nonneg_left (hC r) (le_of_lt hpi)

lemma map_affine_uniform01 {L : ℝ} (hL : 0 < L) :
    Measure.map (fun x : ℝ => 2 * L * x - L) uniform01 =
      ENNReal.ofReal ((2 * L)⁻¹) • volume.restrict (Set.Icc (-L) L) := by
  have h2L : (0 : ℝ) < 2 * L := by linarith
  have hpre : Set.preimage (fun x : ℝ => 2 * L * x - L) (Set.Ico (-L) L) = Set.Ico 0 1 := by
    ext x
    simp only [Set.mem_preimage, Set.mem_Ico]
    constructor
    · rintro ⟨ha, hb⟩
      constructor
      · nlinarith
      · nlinarith
    · rintro ⟨ha, hb⟩
      constructor
      · nlinarith
      · nlinarith
  have hmeas : Measurable fun x : ℝ => 2 * L * x - L :=
    (measurable_const.mul measurable_id).sub measurable_const
  have hg : Measurable fun y : ℝ => y + -L := measurable_id.add_const (-L)
  have hf : Measurable fun x : ℝ => 2 * L * x := measurable_const.mul measurable_id
  have hmapvol : Measure.map (fun x : ℝ => 2 * L * x - L) volume =
      ENNReal.ofReal ((2 * L)⁻¹) • volume := by
    have hcomp : (fun x : ℝ => 2 * L * x - L) =
        (fun y : ℝ => y + -L) ∘ fun x : ℝ => 2 * L * x := by
      funext x
      show 2 * L * x - L = 2 * L * x + -L
      ring
    have hmm : Measure.map ((fun y : ℝ => y + -L) ∘ fun x : ℝ => 2 * L * x) volume =
        Measure.map (fun y : ℝ => y + -L)
          (Measure.map (fun x : ℝ => 2 * L * x) volume) :=
      (Measure.map_map hg hf).symm
    rw [hcomp, hmm, Real.map_volume_mul_left (ne_of_gt h2L), Measure.map_smul,
      map_add_right_eq_self volume (-L), abs_of_pos (inv_pos.mpr h2L)]
  have hrm : Measure.map (fun x : ℝ => 2 * L * x - L)
      (volume.restrict (Set.preimage (fun x : ℝ => 2 * L * x - L) (Set.Ico (-L) L))) =
      (Measure.map (fun x : ℝ => 2 * L * x - L) volume).restrict (Set.Ico (-L) L) :=
    (Measure.restrict_map hmeas measurableSet_Ico).symm
  rw [uniform01, ← hpre, hrm, hmapvol, Measure.restrict_smul]
  congr 1
  exact Measure.restrict_congr_set Ico_ae_eq_Icc

lemma pi_restrict_cube (L : ℝ) :
    Measure.pi (fun _ : Fin 3 => volume.restrict (Set.Icc (-L) L)) =
      (volume : Measure Vec3).restrict (cubeSet L) := by
  refine Measure.pi_eq fun s hs => ?_
  rw [Measure.restrict_apply (MeasurableSet.univ_pi hs)]
  have hint : Set.univ.pi s ∩ cubeSet L =
      Set.univ.pi fun i => s i ∩ Set.Icc (-L) L := by
    rw [cubeSet]
    ext v
    simp only [Set.mem_inter_iff, Set.mem_pi, Set.mem_univ, true_imp_iff]
    constructor
    · rintro ⟨h1, h2⟩ i
      exact ⟨h1 i, h2 i⟩
    · intro h
      exact ⟨fun i => (h i).1, fun i => (h i).2⟩
  rw [hint]
  rw [show (volume : Measure Vec3) = Measure.pi fun _ : Fin 3 => volume from
    MeasureTheory.volume_pi]
  rw [Measure.pi_pi]
  exact Finset.prod_congr rfl fun i _ =>
    (Measure.restrict_apply (hs i)).symm

lemma map_bornSample_unitCube {L : ℝ} (hL : 0 < L) :
    Measure.map (bornSample L) unitCubeLaw =
      ENNReal.ofReal ((2 * L)⁻¹) ^ 3 • (volume : Measure Vec3).restrict (cubeSet L) := by
  have heq : bornSample L = fun v : Vec3 => fun i => (fun x : ℝ => 2 * L * x - L) (v i) :=
    rfl
  have haff : Measurable fun x : ℝ => 2 * L * x - L :=
    (measurable_const.mul measurable_id).sub measurable_const
  rw [unitCubeLaw, heq, map_pi_coordwise haff, map_affine_uniform01 hL]
  haveI : IsFiniteMeasure (volume.restrict (Set.Icc (-L) L)) :=
    ⟨by rw [Measure.restrict_apply MeasurableSet.univ, Set.univ_inter, Real.volume_Icc]
        exact ENNReal.ofReal_lt_top⟩
  rw [pi_smul3 _ ENNReal.ofReal_ne_top, pi_restrict_cube]

lemma integral_integrand_cube {Vfun : Vec3 → ℝ} (hV : Measurable Vfun) (ki kf : Vec3)
    {L : ℝ} (hL : 0 < L) :
    ∫ v, specBornIntegrand Vfun ki kf (bornSample L v) ∂unitCubeLaw =
      ((2 * L) ^ 3)⁻¹ • ∫ r in cubeSet L, specBornIntegrand Vfun ki kf r := by
  have h2L : (0 : ℝ) < 2 * L := by linarith
  have h1 : ∫ v, specBornIntegrand Vfun ki kf (bornSample L v) ∂unitCubeLaw =
      ∫ r, specBornIntegrand Vfun ki kf r ∂(Measure.map (bornSample L) unitCubeLaw) :=
    (integral_map (measurable_bornSample L).aemeasurable
      (measurable_integrand hV ki kf).aestronglyMeasurable).symm
  rw [h1, map_bornSample_unitCube hL, integral_smul_measure]
  congr 1
  rw [ENNReal.toReal_pow, ENNReal.toReal_ofReal (le_of_lt (inv_pos.mpr h2L)), ← inv_pow]

/-- C7: for any probability space carrying pairwise independent samples u n
distributed uniformly on the unit cube (the idealisation of the
np.random.random(3) stream), and any bounded measurable potential, fborn1
passes its guard and the returned estimates converge in probability (indeed
almost surely, by the strong law of large numbers) to the analytic value of
the integral of -(1/(2 pi)) V(r) exp(i (ki - kf).r) over the cube [-L, L]^3
as the sample count N grows. -/
theorem fborn1_tendsto_born_integral {Ω : Type} [MeasurableSpace Ω]
    (μ : Measure Ω) [IsProbabilityMeasure μ] (u : ℕ → Ω → Vec3)
    (hmeas : ∀ n, Measurable (u n))
    (hindep : Pairwise fun m n => IndepFun (u m) (u n) μ)
    (hlaw : ∀ n, Measure.map (u n) μ = unitCubeLaw)
    (Vfun : Vec3 → ℝ) (hV : Measurable Vfun) (C : ℝ) (hC : ∀ r, |Vfun r| ≤ C)
    (ki kf : Vec3) (L : ℝ) (hL : 0 < L)
    (hk : |dot3 ki ki - dot3 kf kf| < 1e-5) :
    (∀ N ω, fborn1 Vfun ki kf L N (fun n => u n ω) =
        some (fborn1Run Vfun ki kf L N (fun n => u n ω))) ∧
      TendstoInMeasure μ
        (fun N ω => fborn1Run Vfun ki kf L N (fun n => u n ω)) atTop
        (fun _ => ∫ r in cubeSet L, specBornIntegrand Vfun ki kf r) := by
  have h2L : (0 : ℝ) < 2 * L := by linarith
  constructor
  · intro N ω
    rw [fborn1, if_pos hk]
  · have hgmeas : Measurable fun v : Vec3 => specBornIntegrand Vfun ki kf (bornSample L v) :=
      (measurable_integrand hV ki kf).comp (measurable_bornSample L)
    set Y : ℕ → Ω → ℂ :=
      fun n ω => specBornIntegrand Vfun ki kf (bornSample L (u n ω)) with hY
    have hYmeas : ∀ n, Measurable (Y n) := fun n => hgmeas.comp (hmeas n)
    have hYindep : Pairwise ((IndepFun · · μ) on Y) := fun m n hmn =>
      (hindep hmn).comp hgmeas hgmeas
    have hYmap : ∀ n, Measure.map (Y n) μ =
        Measure.map (fun v : Vec3 => specBornIntegrand Vfun ki kf (bornSample L v))
          unitCubeLaw := by
      intro n
      have : Measure.map
          ((fun v : Vec3 => specBornIntegrand Vfun ki kf (bornSample L v)) ∘ u n) μ =
          Measure.map (fun v : Vec3 => specBornIntegrand Vfun ki kf (bornSample L v))
            (Measure.map (u n) μ) :=
        (Measure.map_map hgmeas (hmeas n)).symm
      show Measure.map
          ((fun v : Vec3 => specBornIntegrand Vfun ki kf (bornSample L v)) ∘ u n) μ = _
      rw [this, hlaw n]
    have hYident : ∀ n, IdentDistrib (Y n) (Y 0) μ μ := fun n =>
      ⟨(hYmeas n).aemeasurable, (hYmeas 0).aemeasurable, by rw [hYmap n, hYmap 0]⟩
    have hYint : Integrable (Y 0) μ := by
      refine Integrable.mono' (integrable_const ((2 * Real.pi)⁻¹ * C))
        (hYmeas 0).aestronglyMeasurable ?_
      exact Filter.Eventually.of_forall fun ω => integrand_norm_le hC ki kf _
    have hSL := strong_law_ae Y hYint hYindep hYident
    have hEY : (∫ ω, Y 0 ω ∂μ) =
        ((2 * L) ^ 3)⁻¹ • ∫ r in cubeSet L, specBornIntegrand Vfun ki kf r := by
      have h0 : (∫ ω, Y 0 ω ∂μ) =
          ∫ v, specBornIntegrand Vfun ki kf (bornSample L v)
            ∂(Measure.map (u 0) μ) :=
        (integral_map (hmeas 0).aemeasurable hgmeas.aestronglyMeasurable).symm
      rw [h0, hlaw 0]
      exact integral_integrand_cube hV ki kf hL
    have hrun : ∀ N ω, fborn1Run Vfun ki kf L N (fun n => u n ω) =
        ((2 * L) ^ 3 : ℝ) • ((N : ℝ)⁻¹ • ∑ i ∈ range N, Y i ω) := by
      intro N ω
      rw [fborn1Run, fborn1Sum]
      rw [Finset.sum_congr rfl fun n _ =>
        bornTermCode_eq_integrand Vfun ki kf (bornSample L (u n ω))]
      rw [Complex.real_smul, Complex.real_smul]
      push_cast
      ring
    have hae : ∀ᵐ ω ∂μ, Tendsto
        (fun N => fborn1Run Vfun ki kf L N (fun n => u n ω)) atTop
        (𝓝 (∫ r in cubeSet L, specBornIntegrand Vfun ki kf r)) := by
      filter_upwards [hSL] with ω hω
      have h2 := hω.const_smul ((2 * L) ^ 3 : ℝ)
      have hlim : ((2 * L) ^ 3 : ℝ) • (∫ ω, Y 0 ω ∂μ) =
          ∫ r in cubeSet L, specBornIntegrand Vfun ki kf r := by
        rw [hEY, smul_smul, mul_inv_cancel₀ (pow_ne_zero 3 (ne_of_gt h2L)), one_smul]
      rw [hlim] at h2
      refine h2.congr fun N => ?_
      exact (hrun N ω).symm
    refine tendstoInMeasure_of_tendsto_ae (fun N => ?_) hae
    have hfm : Measurable fun ω => fborn1Run Vfun ki kf L N (fun n => u n ω) := by
      have heq : (fun ω => fborn1Run Vfun ki kf L N (fun n => u n ω)) =
          fun ω => ((2 * L) ^ 3 : ℝ) • ((N : ℝ)⁻¹ • ∑ i ∈ range N, Y i ω) := by
        funext ω
        exact hrun N ω
      rw [heq]
      exact ((Finset.measurable_sum (range N) fun i _ =>
        hYmeas i).const_smul ((N : ℝ)⁻¹)).const_smul ((2 * L) ^ 3 : ℝ)
    exact hfm.aestronglyMeasurable

/-- Witness for C7: the torus-driven sampler gives a concrete probability
space and a concrete stream of pairwise independent uniform cube samples; at
the potential 0 with ki = kf = 0 and L = 1 the hypotheses hold and the
estimates converge in probability to the cube integral. -/
theorem fborn1_tendsto_born_integral_witness :
    (∀ N ω, fborn1 (fun _ => 0) 0 0 1 N (fun n => uniformDraw n ω) =
        some (fborn1Run (fun _ => 0) 0 0 1 N (fun n => uniformDraw n ω))) ∧
      TendstoInMeasure sampleMeasure
        (fun N ω => fborn1Run (fun _ => 0) 0 0 1 N (fun n => uniformDraw n ω)) atTop
        (fun _ => ∫ r in cubeSet 1, specBornIntegrand (fun _ => 0) 0 0 r) :=
  fborn1_tendsto_born_integral sampleMeasure uniformDraw uniformDraw_measurable
    uniformDraw_indep uniformDraw_law (fun _ => 0) measurable_const 0
    (fun r => by norm_num) 0 0 1 one_pos (by rw [sub_self, abs_zero]; norm_num)

end
